import Mathlib

/-!
Verification development for the historical sync orchestrator
(`src/packages/core/src/sync-historical/service.ts`).

Block numbers and checkpoints are JavaScript numbers holding small
integers; they are modelled as `Int`.  The one place where a JS number
can be non-integral is `Math.min(...[])`, which evaluates to `Infinity`;
that value is modelled explicitly by `JsNum`.

The interval algebra, `ProgressTracker` and `BlockProgressTracker` live
in `@/utils/interval.js`, which is not part of the sources; those
definitions are modelled from the spec (sections 4.1 to 4.3) and are
marked `Modelled from the spec:` in their doc comments.  Everything else
is translated from `service.ts`.
-/

namespace Ponder

/-- A closed integer block interval `[lo, hi]` (spec section 3). -/
abbrev Interval := Int × Int

/-- `n` lies in the closed interval `i`. -/
def inIv (n : Int) (i : Interval) : Prop :=
  i.1 ≤ n ∧ n ≤ i.2

instance (n : Int) (i : Interval) : Decidable (inIv n i) := by
  unfold inIv
  infer_instance

/-- `n` is covered by some interval of the list `s`. -/
def covers (s : List Interval) (n : Int) : Prop :=
  ∃ i ∈ s, inIv n i

instance (s : List Interval) (n : Int) : Decidable (covers s n) :=
  List.decidableBEx _ s

/-- Modelled from the spec: pairwise intersection of two closed intervals
(interval algebra, spec section 4.1; `@/utils/interval.js` is not under
`src/`).  Returns `none` when the intervals are disjoint. -/
def interOne (i j : Interval) : Option Interval :=
  let lo := max i.1 j.1
  let hi := min i.2 j.2
  if lo ≤ hi then some (lo, hi) else none

/-- Modelled from the spec: `intervalIntersection` over interval sets
(spec section 4.1, "standard set operations"). -/
def intervalIntersection (A B : List Interval) : List Interval :=
  A.flatMap (fun i => B.filterMap (fun j => interOne i j))

/-- Modelled from the spec: the part of interval `i` not covered by
interval `j` (helper for `intervalDifference`, spec section 4.1). -/
def subtractOne (i j : Interval) : List Interval :=
  if j.2 < i.1 ∨ i.2 < j.1 then [i]
  else
    (if i.1 < j.1 then [(i.1, j.1 - 1)] else []) ++
    (if j.2 < i.2 then [(j.2 + 1, i.2)] else [])

/-- Modelled from the spec: the parts of interval `i` not covered by any
interval of `B`. -/
def subtractAll (i : Interval) (B : List Interval) : List Interval :=
  B.foldl (fun acc j => acc.flatMap (fun k => subtractOne k j)) [i]

/-- Modelled from the spec: `intervalDifference` over interval sets
(spec section 4.1, "standard set operations"). -/
def intervalDifference (A B : List Interval) : List Interval :=
  A.flatMap (fun i => subtractAll i B)

/-- Modelled from the spec: insert an interval into a list sorted by
lower bound (helper for the canonical form of spec section 3). -/
def insertIv (i : Interval) : List Interval → List Interval
  | [] => [i]
  | j :: rest => if i.1 ≤ j.1 then i :: j :: rest else j :: insertIv i rest

/-- Modelled from the spec: sort an interval list by lower bound. -/
def sortIvs (l : List Interval) : List Interval :=
  l.foldr insertIv []

/-- Modelled from the spec: merge a list of intervals sorted by lower
bound into the canonical sorted, disjoint, maximally-merged form
(adjacent intervals are merged, spec section 3). -/
def mergeGo (cur : Interval) : List Interval → List Interval
  | [] => [cur]
  | j :: rest =>
    if j.1 ≤ cur.2 + 1 then mergeGo (cur.1, max cur.2 j.2) rest
    else cur :: mergeGo j rest

/-- Modelled from the spec: entry point of the sorted merge. -/
def mergeSortedIvs : List Interval → List Interval
  | [] => []
  | i :: rest => mergeGo i rest

/-- Modelled from the spec: `intervalUnion`, producing the canonical
form (spec section 4.1). -/
def intervalUnion (A B : List Interval) : List Interval :=
  mergeSortedIvs (sortIvs (A ++ B))

/-- Modelled from the spec: one step of chunking, fuel-based.  With
fuel exhausted the remaining interval is emitted whole, which never
happens for the fuel chosen by `chunkInterval` when `k ≥ 1`. -/
def chunkGo (k : Nat) : Nat → Int → Int → List Interval
  | 0, a, b => [(a, b)]
  | fuel + 1, a, b =>
    if b - a + 1 ≤ (k : Int) then [(a, b)]
    else (a, a + (k : Int) - 1) :: chunkGo k fuel (a + (k : Int)) b

/-- Modelled from the spec: split one interval into consecutive chunks
of length at most `k` (spec section 4.1, `chunks`; the spec assumes a
positive `maxChunkSize`). -/
def chunkInterval (k : Nat) (i : Interval) : List Interval :=
  if i.2 < i.1 then [] else chunkGo k (i.2 - i.1).toNat i.1 i.2

/-- Modelled from the spec: `getChunks` over an interval set, preserving
order (spec section 4.1). -/
def getChunks (intervals : List Interval) (maxChunkSize : Nat) : List Interval :=
  intervals.flatMap (fun i => chunkInterval maxChunkSize i)

/-- Modelled from the spec: `ProgressTracker` state, a target interval
and the set of completed intervals in canonical form (spec section 4.2). -/
structure ProgressTracker where
  target : Interval
  completed : List Interval
deriving DecidableEq

/-- Modelled from the spec: `getCheckpoint` is `target.start - 1` if no
completed interval contains `target.start`, else the upper bound of the
completed interval containing `target.start` (spec sections 3 and 4.2). -/
def ProgressTracker.getCheckpoint (t : ProgressTracker) : Int :=
  match t.completed.find? (fun i => decide (i.1 ≤ t.target.1 ∧ t.target.1 ≤ i.2)) with
  | some i => i.2
  | none => t.target.1 - 1

/-- Modelled from the spec: `getRequired` is
`difference([target], completed)` intersected with `[target]`
(spec section 4.2). -/
def ProgressTracker.getRequired (t : ProgressTracker) : List Interval :=
  intervalIntersection (intervalDifference [t.target] t.completed) [t.target]

/-- Result record of `addCompletedInterval` (spec section 4.2). -/
structure AddCompletedResult where
  isUpdated : Bool
  prevCheckpoint : Int
  newCheckpoint : Int
  tracker : ProgressTracker
deriving DecidableEq

/-- Modelled from the spec: `addCompletedInterval` merges an interval
into `completed` and reports the old and new checkpoints, with
`isUpdated := newCheckpoint > prevCheckpoint` (spec section 4.2). -/
def ProgressTracker.addCompletedInterval (t : ProgressTracker) (i : Interval) :
    AddCompletedResult :=
  let prev := t.getCheckpoint
  let t' : ProgressTracker := { t with completed := intervalUnion t.completed [i] }
  let new := t'.getCheckpoint
  ⟨decide (prev < new), prev, new, t'⟩

/-- A JavaScript number that is either a (small) integer or `Infinity`.
`Math.min` applied to an empty argument list returns `Infinity`, so the
orchestrator's `blockTasksCanBeEnqueuedTo` (service.ts:1250) and, after
assignment, `blockTasksEnqueuedCheckpoint` can hold `Infinity`. -/
inductive JsNum where
  | fin (n : Int)
  | inf
deriving DecidableEq

/-- JS `<` on possibly-infinite numbers. -/
def JsNum.jlt : JsNum → JsNum → Bool
  | .fin a, .fin b => decide (a < b)
  | .fin _, .inf => true
  | .inf, _ => false

/-- JS `b <= c` for an integer `b` and a possibly-infinite `c`. -/
def JsNum.geInt : JsNum → Int → Bool
  | .inf, _ => true
  | .fin m, b => decide (b ≤ m)

/-- JS `Math.min` over a spread list of integers: `Infinity` when the
list is empty (service.ts:1250). -/
def jsMin : List Int → JsNum
  | [] => .inf
  | x :: xs => .fin (xs.foldl min x)

/-- An `eth_getLogs` log, reduced to the two fields the orchestrator
reads: `blockNumber` and `transactionHash` (hashes abstracted to ids). -/
structure RpcLog where
  blockNumber : Int
  transactionHash : Nat
deriving DecidableEq

/-- A required log interval as built by `buildLogIntervals`
(service.ts:1223-1228). -/
structure LogInterval where
  startBlock : Int
  endBlock : Int
  logs : List RpcLog
  transactionHashes : List Nat
deriving DecidableEq

/-- Insert an integer into a sorted duplicate-free ascending list.
Models the ascending iteration order of integer-like JS object keys
(`logsByBlockNumber` and `blockCallbacks`). -/
def insertAsc (n : Int) : List Int → List Int
  | [] => [n]
  | x :: xs =>
    if n < x then n :: x :: xs
    else if n = x then x :: xs
    else x :: insertAsc n xs

/-- The ascending list of distinct block numbers that carry a log:
`Object.keys(txHashesByBlockNumber).map(Number).sort` in
service.ts:1213-1215 (the keys of an integer-keyed JS object, sorted). -/
def sortedLogBlockNumbers (logs : List RpcLog) : List Int :=
  logs.foldl (fun acc l => insertAsc l.blockNumber acc) []

/-- `requiredBlocks` of `buildLogIntervals`: block numbers carrying
logs, with `toBlock` appended when it is not already present
(service.ts:1217-1221). -/
def requiredLogBlocks (toBlock : Int) (logs : List RpcLog) : List Int :=
  if toBlock ∈ sortedLogBlockNumbers logs then sortedLogBlockNumbers logs
  else sortedLogBlockNumbers logs ++ [toBlock]

/-- The walk of service.ts:1230-1239: each required block `b` yields the
interval `[prev, b]` carrying the logs at block `b`, and `prev` advances
to `b + 1`. -/
def logIntervalsGo (logs : List RpcLog) : Int → List Int → List LogInterval
  | _, [] => []
  | prev, b :: rest =>
    { startBlock := prev
      endBlock := b
      logs := logs.filter (fun l => l.blockNumber == b)
      transactionHashes :=
        ((logs.filter (fun l => l.blockNumber == b)).map (fun l => l.transactionHash)).dedup } ::
    logIntervalsGo logs (b + 1) rest

/-- `buildLogIntervals` (service.ts:1193-1242). -/
def buildLogIntervals (fromBlock toBlock : Int) (logs : List RpcLog) : List LogInterval :=
  logIntervalsGo logs fromBlock (requiredLogBlocks toBlock logs)

/-- `Number.MAX_SAFE_INTEGER`, the base of all task priorities. -/
def maxSafeInteger : Int := 9007199254740991

/-- The interval-level historical sync tasks relevant to the factory
pipeline and the trace stub, carrying the index of their source
(`HistoricalSyncTask` minus the kinds the claims do not touch;
service.ts:61-108).  The per-task `maxRange` on a factory child task
models `factory.maxBlockRange ?? network.defaultMaxBlockRange`. -/
inductive HTask where
  | factoryChildAddress (sourceIdx : Nat) (maxRange : Nat) (fromBlock toBlock : Int)
  | factoryLogFilter (sourceIdx : Nat) (fromBlock toBlock : Int)
  | traceFilter (sourceIdx : Nat) (fromBlock toBlock : Int)
deriving DecidableEq

/-- Task priority `Number.MAX_SAFE_INTEGER - fromBlock`
(service.ts:256, 349, 420, 514, 596, 1053). -/
def taskPriority : HTask → Int
  | .factoryChildAddress _ _ f _ => maxSafeInteger - f
  | .factoryLogFilter _ f _ => maxSafeInteger - f
  | .traceFilter _ f _ => maxSafeInteger - f

/-- The orchestrator's mutable state (fields of `HistoricalSyncService`,
service.ts:129-155).  The five tracker records keyed by source id become
lists indexed by source index.  `blockCallbacks` keeps only the keys of
the callback map (the callbacks themselves act only on the sync store,
which is out of scope); the keys are kept in ascending order, matching
JS integer-key iteration order.  `pendingBlockCalls` records the
argument of every `blockProgressTracker.addPendingBlocks` call and
`enqueuedBlocks` the block numbers of all enqueued `BLOCK` tasks, in
order. -/
structure OrchState where
  logFilterProgressTrackers : List ProgressTracker
  factoryChildAddressProgressTrackers : List ProgressTracker
  factoryLogFilterProgressTrackers : List ProgressTracker
  blockFilterProgressTrackers : List ProgressTracker
  traceFilterProgressTrackers : List ProgressTracker
  blockCallbacks : List Int
  blockTasksEnqueuedCheckpoint : JsNum
  pendingBlockCalls : List (List Int)
  enqueuedBlocks : List Int
deriving DecidableEq

/-- All progress trackers, in the concatenation order of
service.ts:1252-1257. -/
def OrchState.allTrackers (st : OrchState) : List ProgressTracker :=
  st.logFilterProgressTrackers ++ st.factoryChildAddressProgressTrackers ++
  st.factoryLogFilterProgressTrackers ++ st.blockFilterProgressTrackers ++
  st.traceFilterProgressTrackers

/-- The checkpoints of exactly the trackers that still have required
work: `.filter((i) => i.getRequired().length > 0).map((i) =>
i.getCheckpoint())` (service.ts:1258-1259). -/
def OrchState.activeCheckpoints (st : OrchState) : List Int :=
  (st.allTrackers.filter (fun t => decide (0 < t.getRequired.length))).map
    ProgressTracker.getCheckpoint

/-- `blockTasksCanBeEnqueuedTo = Math.min(...)` (service.ts:1250-1260):
`Infinity` when no tracker has required work left. -/
def blockTasksCanBeEnqueuedTo (st : OrchState) : JsNum :=
  jsMin st.activeCheckpoints

/-- `enqueueBlockTasks` (service.ts:1244-1290): when the threshold
exceeds `blockTasksEnqueuedCheckpoint`, drain every `blockCallbacks` key
up to the threshold into pending blocks and `BLOCK` tasks, then advance
the checkpoint to the threshold. -/
def enqueueBlockTasks (st : OrchState) : OrchState :=
  if st.blockTasksEnqueuedCheckpoint.jlt (blockTasksCanBeEnqueuedTo st) then
    { st with
      pendingBlockCalls := st.pendingBlockCalls ++
        [st.blockCallbacks.filter (fun b => (blockTasksCanBeEnqueuedTo st).geInt b)]
      enqueuedBlocks := st.enqueuedBlocks ++
        st.blockCallbacks.filter (fun b => (blockTasksCanBeEnqueuedTo st).geInt b)
      blockCallbacks :=
        st.blockCallbacks.filter (fun b => !((blockTasksCanBeEnqueuedTo st).geInt b))
      blockTasksEnqueuedCheckpoint := blockTasksCanBeEnqueuedTo st }
  else st

/-- Register one block callback per built log interval, keyed by the
interval's `endBlock` (service.ts:857-891, 931-968, 1004-1029; only the
key set is tracked). -/
def registerLogIntervalCallbacks (st : OrchState) (ivs : List LogInterval) : OrchState :=
  ivs.foldl (fun s iv => { s with blockCallbacks := insertAsc iv.endBlock s.blockCallbacks }) st

/-- Placeholder tracker for an out-of-range source index; the code's
`Record` lookups are always in range. -/
def junkTracker : ProgressTracker :=
  ⟨(0, -1), []⟩

/-- `factoryLogFilterTaskWorker` (service.ts:906-981): build log
intervals from the fetched logs, register block callbacks, mark the
factory log filter tracker complete for the task range, then
`enqueueBlockTasks`. -/
def factoryLogFilterTaskWorker (st : OrchState) (i : Nat) (fromBlock toBlock : Int)
    (logs : List RpcLog) : OrchState :=
  let st1 := registerLogIntervalCallbacks st (buildLogIntervals fromBlock toBlock logs)
  let tr := st1.factoryLogFilterProgressTrackers.getD i junkTracker
  let r := tr.addCompletedInterval (fromBlock, toBlock)
  let st2 := { st1 with
    factoryLogFilterProgressTrackers := st1.factoryLogFilterProgressTrackers.set i r.tracker }
  enqueueBlockTasks st2

/-- `factoryChildAddressTaskWorker` (service.ts:983-1069): build log
intervals from the fetched factory logs, register block callbacks, mark
the child address tracker complete for the task range, and when the
checkpoint advanced, spawn `FACTORY_LOG_FILTER` tasks for the chunks of
`[prevCheckpoint + 1, newCheckpoint]` intersected with the factory log
filter tracker's required intervals.  This worker does not call
`enqueueBlockTasks`. -/
def factoryChildAddressTaskWorker (st : OrchState) (i : Nat) (maxRange : Nat)
    (fromBlock toBlock : Int) (logs : List RpcLog) : OrchState × List HTask :=
  let st1 := registerLogIntervalCallbacks st (buildLogIntervals fromBlock toBlock logs)
  let tr := st1.factoryChildAddressProgressTrackers.getD i junkTracker
  let r := tr.addCompletedInterval (fromBlock, toBlock)
  let st2 := { st1 with
    factoryChildAddressProgressTrackers :=
      st1.factoryChildAddressProgressTrackers.set i r.tracker }
  let spawned :=
    if r.isUpdated then
      (getChunks
        (intervalIntersection [(r.prevCheckpoint + 1, r.newCheckpoint)]
          ((st2.factoryLogFilterProgressTrackers.getD i junkTracker).getRequired))
        maxRange).map (fun p => HTask.factoryLogFilter i p.1 p.2)
    else []
  (st2, spawned)

/-- Dispatch of the queue worker (service.ts:691-720) on the modelled
task kinds.  `env` supplies the logs the RPC returns for a task.  The
`TRACE_FILTER` case is the code's stub: `// TODO(kyle)` followed by
`break` (service.ts:713-716), so it changes nothing and spawns nothing. -/
def runTask (env : HTask → List RpcLog) (st : OrchState) (t : HTask) :
    OrchState × List HTask :=
  match t with
  | .factoryChildAddress i k f tb => factoryChildAddressTaskWorker st i k f tb (env t)
  | .factoryLogFilter i f tb => (factoryLogFilterTaskWorker st i f tb (env t), [])
  | .traceFilter _ _ _ => (st, [])

/-- Pick the highest-priority task from the queue, ties first-in
first-out (spec section 4.4). -/
def pickHighest (q : List (HTask × Int)) :
    Option ((HTask × Int) × List (HTask × Int)) :=
  match q with
  | [] => none
  | x :: xs =>
    let best := xs.foldl (fun a b => if a.2 < b.2 then b else a) x
    some (best, q.erase best)

/-- Run the task queue with concurrency one (a legal
`maxHistoricalTaskConcurrency`): repeatedly run the highest-priority
task and append the tasks it spawned.  `BLOCK` tasks are recorded in
`enqueuedBlocks` rather than queued, since the `BLOCK` worker
(service.ts:1162-1191) touches neither the trackers, nor
`blockCallbacks`, nor `blockTasksEnqueuedCheckpoint`. -/
def runQueue (env : HTask → List RpcLog) :
    Nat → OrchState → List (HTask × Int) → OrchState
  | 0, st, _ => st
  | Nat.succ fuel, st, q =>
    match pickHighest q with
    | none => st
    | some (x, rest) =>
      let r := runTask env st x.1
      runQueue env fuel r.1 (rest ++ r.2.map (fun t => (t, taskPriority t)))

/-- Result of `setup` for one factory source. -/
structure FactorySetup where
  childTracker : ProgressTracker
  logFilterTracker : ProgressTracker
  tasks : List HTask
deriving DecidableEq

/-- `setup` for a factory source with historical sync required
(service.ts:315-429): construct both trackers from the completed
intervals the sync store reports, enqueue `FACTORY_CHILD_ADDRESS` tasks
for the chunks of the child tracker's required intervals, and
`FACTORY_LOG_FILTER` tasks only for the chunks of
`intervalDifference(requiredFactoryLogFilterIntervals,
requiredFactoryChildAddressIntervals)`. -/
def setupFactorySource (target : Interval) (completedChild completedLog : List Interval)
    (maxRange : Nat) : FactorySetup :=
  let childTr : ProgressTracker := ⟨target, completedChild⟩
  let requiredChild := childTr.getRequired
  let childTasks := (getChunks requiredChild maxRange).map
    (fun p => HTask.factoryChildAddress 0 maxRange p.1 p.2)
  let logTr : ProgressTracker := ⟨target, completedLog⟩
  let requiredLog := logTr.getRequired
  let missing := intervalDifference requiredLog requiredChild
  let logTasks := (getChunks missing maxRange).map
    (fun p => HTask.factoryLogFilter 0 p.1 p.2)
  ⟨childTr, logTr, childTasks ++ logTasks⟩

/-!
A concrete run of the orchestrator after `setup`, used to examine the
block-coalescing invariant.  One factory source with target `[0, 30]`
and `defaultMaxBlockRange = 50`; the sync store reports the child
address intervals `[[10, 20]]` as already cached (recorded by an
earlier, interrupted run) and no cached factory log filter intervals.
The chain has one child-contract log, at block 15, and no factory
(child-creation) logs, so `eth_getLogs` for a `FACTORY_LOG_FILTER` task
returns that log exactly when the task range contains block 15.
-/

/-- The logs the RPC returns for each task in the scenario. -/
def scenarioEnv : HTask → List RpcLog :=
  fun t =>
    match t with
    | .factoryLogFilter _ f tb => if f ≤ 15 ∧ 15 ≤ tb then [⟨15, 0⟩] else []
    | _ => []

/-- `setup` of the scenario's factory source. -/
def scenarioSetup : FactorySetup :=
  setupFactorySource (0, 30) [(10, 20)] [] 50

/-- Orchestrator state right after `setup`
(service.ts:194-196 resets `blockTasksEnqueuedCheckpoint` to 0). -/
def scenarioInitState : OrchState :=
  { logFilterProgressTrackers := []
    factoryChildAddressProgressTrackers := [scenarioSetup.childTracker]
    factoryLogFilterProgressTrackers := [scenarioSetup.logFilterTracker]
    blockFilterProgressTrackers := []
    traceFilterProgressTrackers := []
    blockCallbacks := []
    blockTasksEnqueuedCheckpoint := .fin 0
    pendingBlockCalls := []
    enqueuedBlocks := [] }

/-- The queue contents after `setup`, with the priorities the code
assigns. -/
def scenarioInitQueue : List (HTask × Int) :=
  scenarioSetup.tasks.map (fun t => (t, taskPriority t))

/-- The orchestrator state after the queue has drained. -/
def scenarioFinal : OrchState :=
  runQueue scenarioEnv 12 scenarioInitState scenarioInitQueue

/-- The `requiredBlocks` enumeration of `blockFilterTaskWorker`
(service.ts:1076-1098): first candidate `fromBlock + offset` where
`offset` is derived from the JS remainder `(fromBlock -
criteria.offset) % criteria.interval` (`Int.tmod`, which has the sign of
the dividend, exactly like JS `%`), stepping by `criteria.interval`
while `<= toBlock`, then `toBlock` appended when not already present.
The enumeration is fuel-based; the fuel `(toBlock + 1 - start).toNat`
covers every step since `criteria.interval >= 1`. -/
def blockFilterMatchedGo (interval : Int) : Nat → Int → Int → List Int
  | 0, _, _ => []
  | fuel + 1, bn, toBlock =>
    if bn ≤ toBlock then bn :: blockFilterMatchedGo interval fuel (bn + interval) toBlock
    else []

/-- `requiredBlocks` of `blockFilterTaskWorker` (service.ts:1076-1098). -/
def blockFilterRequiredBlocks (fromBlock toBlock interval offset : Int) : List Int :=
  let baseOffset := (fromBlock - offset).tmod interval
  let off := if baseOffset = 0 then 0 else interval - baseOffset
  let start := fromBlock + off
  let matched := blockFilterMatchedGo interval (toBlock + 1 - start).toNat start toBlock
  if toBlock ∈ matched then matched else matched ++ [toBlock]

/-- `HistoricalSyncTask` shapes as seen by `onError`
(service.ts:748-838): every interval task carries `fromBlock` and
`toBlock`; a `BLOCK` task carries `blockNumber` and its callback list
(callbacks abstracted to ids). -/
inductive QTask where
  | logFilter (fromBlock toBlock : Int)
  | factoryChildAddress (fromBlock toBlock : Int)
  | factoryLogFilter (fromBlock toBlock : Int)
  | blockFilter (fromBlock toBlock : Int)
  | traceFilter (fromBlock toBlock : Int)
  | block (blockNumber : Int) (callbacks : List Nat)
deriving DecidableEq

/-- The block number that determines a task's priority: `fromBlock` for
interval tasks, `blockNumber` for `BLOCK` tasks. -/
def taskBlockKey : QTask → Int
  | .logFilter f _ => f
  | .factoryChildAddress f _ => f
  | .factoryLogFilter f _ => f
  | .blockFilter f _ => f
  | .traceFilter f _ => f
  | .block n _ => n

/-- The queue's `onError` callback (service.ts:748-838): when the
shutdown flag is set, return immediately; otherwise re-enqueue a copy
of the failed task (`{ ...task }`, a shallow copy, so a `BLOCK` task
keeps the same callbacks array) at priority `Number.MAX_SAFE_INTEGER -
fromBlock`, or `- blockNumber` for `BLOCK` tasks. -/
def onError (isShuttingDown : Bool) (task : QTask) (queue : List (QTask × Int)) :
    List (QTask × Int) :=
  if isShuttingDown then queue
  else
    match task with
    | .logFilter f tb => queue ++ [(.logFilter f tb, maxSafeInteger - f)]
    | .factoryChildAddress f tb => queue ++ [(.factoryChildAddress f tb, maxSafeInteger - f)]
    | .factoryLogFilter f tb => queue ++ [(.factoryLogFilter f tb, maxSafeInteger - f)]
    | .blockFilter f tb => queue ++ [(.blockFilter f tb, maxSafeInteger - f)]
    | .traceFilter f tb => queue ++ [(.traceFilter f tb, maxSafeInteger - f)]
    | .block n cbs => queue ++ [(.block n cbs, maxSafeInteger - n)]

/-- The callback loop of `blockTaskWorker` (service.ts:1167-1169): run
the callbacks in order; `fails` tells which callbacks throw (a sync
store insert can reject).  Returns the callbacks that completed before
the first failure and whether the whole task succeeded.  The worker
keeps no record of completed callbacks. -/
def runCallbacks (fails : Nat → Bool) : List Nat → List Nat × Bool
  | [] => ([], true)
  | c :: rest =>
    if fails c then ([], false)
    else
      let r := runCallbacks fails rest
      (c :: r.1, r.2)

/-- The contract of `enqueueBlockTasks` when at least one tracker still
has required work: `blockTasksCanBeEnqueuedTo` is the finite minimum of
the checkpoints of exactly the trackers with non-empty `getRequired()`;
when it exceeds `blockTasksEnqueuedCheckpoint` the `BLOCK` tasks
enqueued are precisely the `blockCallbacks` keys up to the threshold,
those keys are removed, and the checkpoint advances to the threshold;
otherwise the state is unchanged. -/
def enqueueThresholdSpec (st : OrchState) : Prop :=
  ∃ m : Int,
    blockTasksCanBeEnqueuedTo st = .fin m
    ∧ m ∈ st.activeCheckpoints
    ∧ (∀ c ∈ st.activeCheckpoints, m ≤ c)
    ∧ (st.blockTasksEnqueuedCheckpoint.jlt (.fin m) = true →
        (enqueueBlockTasks st).enqueuedBlocks =
          st.enqueuedBlocks ++ st.blockCallbacks.filter (fun b => (JsNum.fin m).geInt b)
        ∧ (enqueueBlockTasks st).blockCallbacks =
            st.blockCallbacks.filter (fun b => !((JsNum.fin m).geInt b))
        ∧ (enqueueBlockTasks st).blockTasksEnqueuedCheckpoint = .fin m
        ∧ ∀ b : Int,
            b ∈ st.blockCallbacks.filter (fun b => (JsNum.fin m).geInt b) ↔
              b ∈ st.blockCallbacks ∧ b ≤ m)
    ∧ (st.blockTasksEnqueuedCheckpoint.jlt (.fin m) = false → enqueueBlockTasks st = st)

/-- A state with one log filter source that still has required work:
target `[0, 10]` with `[0, 3]` completed (checkpoint 3), callback keys 2
and 5. -/
def enqueueWitnessState : OrchState :=
  { logFilterProgressTrackers := [⟨(0, 10), [(0, 3)]⟩]
    factoryChildAddressProgressTrackers := []
    factoryLogFilterProgressTrackers := []
    blockFilterProgressTrackers := []
    traceFilterProgressTrackers := []
    blockCallbacks := [2, 5]
    blockTasksEnqueuedCheckpoint := .fin 0
    pendingBlockCalls := []
    enqueuedBlocks := [] }

/-- A state in which every source has finished its required work: a log
filter with target `[0, 10]` fully completed (checkpoint 10) and a block
filter with target `[0, 20]` fully completed (checkpoint 20), with one
callback key left. -/
def allDoneState : OrchState :=
  { logFilterProgressTrackers := [⟨(0, 10), [(0, 10)]⟩]
    factoryChildAddressProgressTrackers := []
    factoryLogFilterProgressTrackers := []
    blockFilterProgressTrackers := []
    traceFilterProgressTrackers := [⟨(0, 20), [(0, 20)]⟩]
    blockCallbacks := [12]
    blockTasksEnqueuedCheckpoint := .fin 0
    pendingBlockCalls := []
    enqueuedBlocks := [] }

/-- A state with one function-call (trace) source whose tracker has
target `[0, 10]` and nothing completed. -/
def traceSourceState : OrchState :=
  { logFilterProgressTrackers := []
    factoryChildAddressProgressTrackers := []
    factoryLogFilterProgressTrackers := []
    blockFilterProgressTrackers := []
    traceFilterProgressTrackers := [⟨(0, 10), []⟩]
    blockCallbacks := []
    blockTasksEnqueuedCheckpoint := .fin 0
    pendingBlockCalls := []
    enqueuedBlocks := [] }

/-- The tiling property of `buildLogIntervals` over `[fromBlock,
toBlock]`: the interval list is non-empty, starts at `fromBlock`, each
interval starts right after the previous one ends, the last interval
ends at `toBlock`, and every interval is valid and carries exactly the
logs of its `endBlock`. -/
def logIntervalsTile (fromBlock toBlock : Int) (logs : List RpcLog) : Prop :=
  buildLogIntervals fromBlock toBlock logs ≠ []
  ∧ (buildLogIntervals fromBlock toBlock logs).head?.map (fun iv => iv.startBlock) =
      some fromBlock
  ∧ List.Chain' (fun a b => b.startBlock = a.endBlock + 1)
      (buildLogIntervals fromBlock toBlock logs)
  ∧ (buildLogIntervals fromBlock toBlock logs).getLast?.map (fun iv => iv.endBlock) =
      some toBlock
  ∧ ∀ iv ∈ buildLogIntervals fromBlock toBlock logs,
      iv.startBlock ≤ iv.endBlock ∧
      iv.logs = logs.filter (fun l => l.blockNumber == iv.endBlock)

/-- The contract of the `FACTORY_LOG_FILTER` tasks enqueued by `setup`:
a block is covered by such a task exactly when it is required by the
factory log filter tracker but not by the child address tracker, and
every task range fits in `maxRange`. -/
def factorySetupLogTasksSpec (target : Interval)
    (completedChild completedLog : List Interval) (maxRange : Nat) : Prop :=
  (∀ n : Int,
    (∃ f tb : Int,
        HTask.factoryLogFilter 0 f tb ∈
          (setupFactorySource target completedChild completedLog maxRange).tasks
        ∧ f ≤ n ∧ n ≤ tb)
    ↔ covers (ProgressTracker.getRequired ⟨target, completedLog⟩) n ∧
      ¬ covers (ProgressTracker.getRequired ⟨target, completedChild⟩) n)
  ∧ ∀ f tb : Int,
      HTask.factoryLogFilter 0 f tb ∈
        (setupFactorySource target completedChild completedLog maxRange).tasks →
      tb - f + 1 ≤ (maxRange : Int)

/-! ### Membership lemmas for the interval algebra -/

theorem covers_cons (i : Interval) (s : List Interval) (n : Int) :
    covers (i :: s) n ↔ inIv n i ∨ covers s n := by
  constructor
  · rintro ⟨j, hj, h⟩
    rcases List.mem_cons.mp hj with rfl | hj
    · exact Or.inl h
    · exact Or.inr ⟨j, hj, h⟩
  · rintro (h | ⟨j, hj, h⟩)
    · exact ⟨i, List.mem_cons_self i s, h⟩
    · exact ⟨j, List.mem_cons_of_mem i hj, h⟩

theorem covers_subtractOne (i j : Interval) (n : Int) :
    covers (subtractOne i j) n ↔ inIv n i ∧ ¬ inIv n j := by
  unfold subtractOne
  by_cases h1 : j.2 < i.1 ∨ i.2 < j.1 <;>
    by_cases h2 : i.1 < j.1 <;>
      by_cases h3 : j.2 < i.2 <;>
        simp [h1, h2, h3, covers, inIv] <;> omega

theorem covers_subtractStep (acc : List Interval) (j : Interval) (n : Int) :
    covers (acc.flatMap (fun k => subtractOne k j)) n ↔ covers acc n ∧ ¬ inIv n j := by
  constructor
  · rintro ⟨iv, hiv, hin⟩
    rcases List.mem_flatMap.mp hiv with ⟨k, hk, hmem⟩
    have h := (covers_subtractOne k j n).mp ⟨iv, hmem, hin⟩
    exact ⟨⟨k, hk, h.1⟩, h.2⟩
  · rintro ⟨⟨k, hk, hin⟩, hnot⟩
    rcases (covers_subtractOne k j n).mpr ⟨hin, hnot⟩ with ⟨iv, hmem, hiv⟩
    exact ⟨iv, List.mem_flatMap.mpr ⟨k, hk, hmem⟩, hiv⟩

theorem covers_subtractFold (B : List Interval) (acc : List Interval) (n : Int) :
    covers (B.foldl (fun acc j => acc.flatMap (fun k => subtractOne k j)) acc) n ↔
      covers acc n ∧ ∀ j ∈ B, ¬ inIv n j := by
  induction B generalizing acc with
  | nil => simp
  | cons j B ih =>
    rw [List.foldl_cons, ih, covers_subtractStep]
    simp only [List.forall_mem_cons]
    tauto

theorem covers_subtractAll (i : Interval) (B : List Interval) (n : Int) :
    covers (subtractAll i B) n ↔ inIv n i ∧ ∀ j ∈ B, ¬ inIv n j := by
  unfold subtractAll
  rw [covers_subtractFold]
  simp [covers]

theorem covers_intervalDifference (A B : List Interval) (n : Int) :
    covers (intervalDifference A B) n ↔ covers A n ∧ ¬ covers B n := by
  unfold intervalDifference
  constructor
  · rintro ⟨iv, hiv, hin⟩
    rcases List.mem_flatMap.mp hiv with ⟨i, hi, hmem⟩
    have h := (covers_subtractAll i B n).mp ⟨iv, hmem, hin⟩
    refine ⟨⟨i, hi, h.1⟩, ?_⟩
    rintro ⟨j, hj, hjn⟩
    exact h.2 j hj hjn
  · rintro ⟨⟨i, hi, hin⟩, hnot⟩
    have h2 : ∀ j ∈ B, ¬ inIv n j := fun j hj hjn => hnot ⟨j, hj, hjn⟩
    rcases (covers_subtractAll i B n).mpr ⟨hin, h2⟩ with ⟨iv, hmem, hiv⟩
    exact ⟨iv, List.mem_flatMap.mpr ⟨i, hi, hmem⟩, hiv⟩

theorem interOne_spec (i j : Interval) (n : Int) :
    (∃ k, interOne i j = some k ∧ inIv n k) ↔ inIv n i ∧ inIv n j := by
  unfold interOne inIv
  by_cases h : max i.1 j.1 ≤ min i.2 j.2 <;> simp [h] <;> omega

theorem covers_intervalIntersection (A B : List Interval) (n : Int) :
    covers (intervalIntersection A B) n ↔ covers A n ∧ covers B n := by
  unfold intervalIntersection
  constructor
  · rintro ⟨iv, hiv, hin⟩
    rcases List.mem_flatMap.mp hiv with ⟨i, hi, hmem⟩
    rcases List.mem_filterMap.mp hmem with ⟨j, hj, hEq⟩
    have h := (interOne_spec i j n).mp ⟨iv, hEq, hin⟩
    exact ⟨⟨i, hi, h.1⟩, ⟨j, hj, h.2⟩⟩
  · rintro ⟨⟨i, hi, hin⟩, ⟨j, hj, hjn⟩⟩
    rcases (interOne_spec i j n).mpr ⟨hin, hjn⟩ with ⟨k, hEq, hkn⟩
    exact ⟨k, List.mem_flatMap.mpr ⟨i, hi, List.mem_filterMap.mpr ⟨j, hj, hEq⟩⟩, hkn⟩

theorem covers_chunkGo (k : Nat) (hk : 1 ≤ k) (n : Int) :
    ∀ (fuel : Nat) (a b : Int), a ≤ b →
      (covers (chunkGo k fuel a b) n ↔ a ≤ n ∧ n ≤ b) := by
  intro fuel
  induction fuel with
  | zero =>
    intro a b hab
    simp [chunkGo, covers, inIv]
  | succ fuel ih =>
    intro a b hab
    rw [chunkGo]
    by_cases h : b - a + 1 ≤ (k : Int)
    · simp [h, covers, inIv]
    · have hk' : (1 : Int) ≤ (k : Int) := by exact_mod_cast hk
      have hab' : a + (k : Int) ≤ b := by omega
      rw [if_neg h, covers_cons, ih (a + (k : Int)) b hab']
      unfold inIv
      constructor
      · rintro (⟨h1, h2⟩ | ⟨h1, h2⟩) <;> constructor <;> omega
      · rintro ⟨h1, h2⟩
        by_cases hcase : n ≤ a + (k : Int) - 1
        · exact Or.inl ⟨by omega, by omega⟩
        · exact Or.inr ⟨by omega, h2⟩

theorem covers_chunkInterval (k : Nat) (hk : 1 ≤ k) (i : Interval) (n : Int) :
    covers (chunkInterval k i) n ↔ inIv n i := by
  unfold chunkInterval
  by_cases h : i.2 < i.1
  · simp only [h, if_true]
    constructor
    · rintro ⟨j, hj, _⟩
      simp at hj
    · rintro ⟨h1, h2⟩
      omega
  · rw [if_neg h, covers_chunkGo k hk n _ i.1 i.2 (by omega)]
    rfl

theorem covers_getChunks (k : Nat) (hk : 1 ≤ k) (I : List Interval) (n : Int) :
    covers (getChunks I k) n ↔ covers I n := by
  unfold getChunks
  constructor
  · rintro ⟨iv, hiv, hin⟩
    rcases List.mem_flatMap.mp hiv with ⟨i, hi, hmem⟩
    exact ⟨i, hi, (covers_chunkInterval k hk i n).mp ⟨iv, hmem, hin⟩⟩
  · rintro ⟨i, hi, hin⟩
    rcases (covers_chunkInterval k hk i n).mpr hin with ⟨iv, hmem, hiv⟩
    exact ⟨iv, List.mem_flatMap.mpr ⟨i, hi, hmem⟩, hiv⟩

theorem chunkGo_size (k : Nat) (hk : 1 ≤ k) :
    ∀ (fuel : Nat) (a b : Int), b - a ≤ (k : Int) * fuel →
      ∀ c ∈ chunkGo k fuel a b, c.2 - c.1 + 1 ≤ (k : Int) := by
  intro fuel
  induction fuel with
  | zero =>
    intro a b hb c hc
    have hk' : (1 : Int) ≤ (k : Int) := by exact_mod_cast hk
    simp [chunkGo] at hc
    subst hc
    simp at hb
    simp
    omega
  | succ fuel ih =>
    intro a b hb c hc
    have hk' : (1 : Int) ≤ (k : Int) := by exact_mod_cast hk
    rw [chunkGo] at hc
    by_cases h : b - a + 1 ≤ (k : Int)
    · rw [if_pos h] at hc
      simp at hc
      subst hc
      simpa using h
    · rw [if_neg h] at hc
      rcases List.mem_cons.mp hc with rfl | hc
      · simp
        omega
      · apply ih (a + (k : Int)) b _ c hc
        have hcast : ((fuel + 1 : Nat) : Int) = (fuel : Int) + 1 := by push_cast; ring
        rw [hcast] at hb
        have hmul : (k : Int) * ((fuel : Int) + 1) = (k : Int) * (fuel : Int) + (k : Int) := by
          ring
        linarith [hb, hmul.le, hmul.ge]

theorem chunkInterval_size (k : Nat) (hk : 1 ≤ k) (i : Interval) :
    ∀ c ∈ chunkInterval k i, c.2 - c.1 + 1 ≤ (k : Int) := by
  intro c hc
  unfold chunkInterval at hc
  by_cases h : i.2 < i.1
  · simp [h] at hc
  · rw [if_neg h] at hc
    apply chunkGo_size k hk _ i.1 i.2 _ c hc
    have h0 : (0 : Int) ≤ i.2 - i.1 := by omega
    have hEq : ((i.2 - i.1).toNat : Int) = i.2 - i.1 := Int.toNat_of_nonneg h0
    have hk' : (1 : Int) ≤ (k : Int) := by exact_mod_cast hk
    calc i.2 - i.1 = ((i.2 - i.1).toNat : Int) := hEq.symm
    _ = 1 * ((i.2 - i.1).toNat : Int) := by ring
    _ ≤ (k : Int) * ((i.2 - i.1).toNat : Int) := by
        apply mul_le_mul_of_nonneg_right hk'
        omega

theorem getChunks_size (k : Nat) (hk : 1 ≤ k) (I : List Interval) :
    ∀ c ∈ getChunks I k, c.2 - c.1 + 1 ≤ (k : Int) := by
  intro c hc
  rcases List.mem_flatMap.mp hc with ⟨i, _, hmem⟩
  exact chunkInterval_size k hk i c hmem

/-! ### Lemmas about the fold of `min` (JS `Math.min`) -/

theorem foldl_min_le_init (xs : List Int) (x : Int) : xs.foldl min x ≤ x := by
  induction xs generalizing x with
  | nil => simp
  | cons y ys ih => exact le_trans (ih (min x y)) (min_le_left x y)

theorem foldl_min_le_mem (xs : List Int) (x : Int) :
    ∀ y ∈ xs, xs.foldl min x ≤ y := by
  induction xs generalizing x with
  | nil => simp
  | cons y ys ih =>
    intro z hz
    rcases List.mem_cons.mp hz with rfl | hz
    · exact le_trans (foldl_min_le_init ys (min x z)) (min_le_right x z)
    · exact ih (min x y) z hz

theorem foldl_min_mem (xs : List Int) (x : Int) :
    xs.foldl min x = x ∨ xs.foldl min x ∈ xs := by
  induction xs generalizing x with
  | nil => simp
  | cons y ys ih =>
    rw [List.foldl_cons]
    rcases ih (min x y) with h | h
    · rcases min_choice x y with hm | hm
      · exact Or.inl (h.trans hm)
      · exact Or.inr (List.mem_cons.mpr (Or.inl (h.trans hm)))
    · exact Or.inr (List.mem_cons.mpr (Or.inr h))

/-! ### Lemmas about `buildLogIntervals` -/

theorem mem_insertAsc (n m : Int) (l : List Int) :
    m ∈ insertAsc n l ↔ m = n ∨ m ∈ l := by
  induction l with
  | nil => simp [insertAsc]
  | cons x xs ih =>
    rw [insertAsc]
    by_cases h1 : n < x
    · simp [h1]
    · rw [if_neg h1]
      by_cases h2 : n = x
      · subst h2
        simp
      · rw [if_neg h2]
        simp [ih]
        tauto

theorem pairwise_insertAsc (n : Int) (l : List Int)
    (h : l.Pairwise (· < ·)) : (insertAsc n l).Pairwise (· < ·) := by
  induction l with
  | nil => simp [insertAsc]
  | cons x xs ih =>
    rw [List.pairwise_cons] at h
    rw [insertAsc]
    by_cases h1 : n < x
    · rw [if_pos h1, List.pairwise_cons]
      refine ⟨?_, List.pairwise_cons.mpr h⟩
      intro y hy
      rcases List.mem_cons.mp hy with rfl | hy
      · exact h1
      · exact lt_trans h1 (h.1 y hy)
    · rw [if_neg h1]
      by_cases h2 : n = x
      · rw [if_pos h2, List.pairwise_cons]
        exact h
      · rw [if_neg h2, List.pairwise_cons]
        refine ⟨?_, ih h.2⟩
        intro y hy
        rcases (mem_insertAsc n y xs).mp hy with rfl | hy
        · omega
        · exact h.1 y hy

theorem mem_sortedFold (logs : List RpcLog) (acc : List Int) (x : Int) :
    x ∈ logs.foldl (fun acc l => insertAsc l.blockNumber acc) acc ↔
      x ∈ acc ∨ ∃ l ∈ logs, l.blockNumber = x := by
  induction logs generalizing acc with
  | nil => simp
  | cons lg rest ih =>
    rw [List.foldl_cons, ih, mem_insertAsc]
    simp
    tauto

theorem mem_sortedLogBlockNumbers (logs : List RpcLog) (x : Int) :
    x ∈ sortedLogBlockNumbers logs ↔ ∃ l ∈ logs, l.blockNumber = x := by
  unfold sortedLogBlockNumbers
  rw [mem_sortedFold]
  simp

theorem pairwise_sortedFold (logs : List RpcLog) (acc : List Int)
    (h : acc.Pairwise (· < ·)) :
    (logs.foldl (fun acc l => insertAsc l.blockNumber acc) acc).Pairwise (· < ·) := by
  induction logs generalizing acc with
  | nil => exact h
  | cons lg rest ih => exact ih _ (pairwise_insertAsc _ _ h)

theorem pairwise_sortedLogBlockNumbers (logs : List RpcLog) :
    (sortedLogBlockNumbers logs).Pairwise (· < ·) :=
  pairwise_sortedFold logs [] List.Pairwise.nil

theorem le_getLast_of_pairwise (l : List Int) (h : l.Pairwise (· < ·)) :
    ∀ x ∈ l, ∀ hne : l ≠ [], x ≤ l.getLast hne := by
  induction l with
  | nil => simp
  | cons a l' ih =>
    intro x hx hne
    rw [List.pairwise_cons] at h
    cases l' with
    | nil =>
      simp at hx
      subst hx
      simp
    | cons b l'' =>
      rw [List.getLast_cons (by simp)]
      rcases List.mem_cons.mp hx with rfl | hx
      · have hmem : (b :: l'').getLast (by simp) ∈ b :: l'' := List.getLast_mem _
        exact le_of_lt (h.1 _ hmem)
      · exact ih h.2 x hx (by simp)

theorem pairwise_requiredLogBlocks (toBlock : Int) (logs : List RpcLog)
    (hub : ∀ l ∈ logs, l.blockNumber ≤ toBlock) :
    (requiredLogBlocks toBlock logs).Pairwise (· < ·) := by
  unfold requiredLogBlocks
  by_cases h : toBlock ∈ sortedLogBlockNumbers logs
  · simpa [h] using pairwise_sortedLogBlockNumbers logs
  · rw [if_neg h, List.pairwise_append]
    refine ⟨pairwise_sortedLogBlockNumbers logs, by simp, ?_⟩
    intro x hx y hy
    simp at hy
    rcases (mem_sortedLogBlockNumbers logs x).mp hx with ⟨l, hl, rfl⟩
    have hne : l.blockNumber ≠ toBlock := fun hEq => h (hEq ▸ hx)
    have hle := hub l hl
    omega

theorem requiredLogBlocks_ne_nil (toBlock : Int) (logs : List RpcLog) :
    requiredLogBlocks toBlock logs ≠ [] := by
  unfold requiredLogBlocks
  by_cases h : toBlock ∈ sortedLogBlockNumbers logs
  · rw [if_pos h]
    exact List.ne_nil_of_mem h
  · rw [if_neg h]
    simp

theorem getLast?_requiredLogBlocks (toBlock : Int) (logs : List RpcLog)
    (hub : ∀ l ∈ logs, l.blockNumber ≤ toBlock) :
    (requiredLogBlocks toBlock logs).getLast? = some toBlock := by
  unfold requiredLogBlocks
  by_cases h : toBlock ∈ sortedLogBlockNumbers logs
  · rw [if_pos h]
    have hne : sortedLogBlockNumbers logs ≠ [] := List.ne_nil_of_mem h
    rw [List.getLast?_eq_getLast _ hne]
    have hle := le_getLast_of_pairwise _ (pairwise_sortedLogBlockNumbers logs) toBlock h hne
    have hmem := List.getLast_mem hne
    rcases (mem_sortedLogBlockNumbers logs _).mp hmem with ⟨l, hl, hEq⟩
    have hub' := hub l hl
    have : (sortedLogBlockNumbers logs).getLast hne = toBlock := by omega
    rw [this]
  · rw [if_neg h]
    simp

theorem mem_requiredLogBlocks_lb (fromBlock toBlock : Int) (logs : List RpcLog)
    (hft : fromBlock ≤ toBlock)
    (hlb : ∀ l ∈ logs, fromBlock ≤ l.blockNumber) :
    ∀ x ∈ requiredLogBlocks toBlock logs, fromBlock ≤ x := by
  intro x hx
  unfold requiredLogBlocks at hx
  by_cases h : toBlock ∈ sortedLogBlockNumbers logs
  · rw [if_pos h] at hx
    rcases (mem_sortedLogBlockNumbers logs x).mp hx with ⟨l, hl, rfl⟩
    exact hlb l hl
  · rw [if_neg h] at hx
    rcases List.mem_append.mp hx with hx | hx
    · rcases (mem_sortedLogBlockNumbers logs x).mp hx with ⟨l, hl, rfl⟩
      exact hlb l hl
    · simp at hx
      omega

theorem logIntervalsGo_map_endBlock (logs : List RpcLog) :
    ∀ (l : List Int) (prev : Int),
      (logIntervalsGo logs prev l).map (fun iv => iv.endBlock) = l := by
  intro l
  induction l with
  | nil => intro prev; rfl
  | cons b rest ih =>
    intro prev
    rw [logIntervalsGo, List.map_cons, ih]

theorem logIntervalsGo_ne_nil (logs : List RpcLog) (prev : Int) (l : List Int)
    (h : l ≠ []) : logIntervalsGo logs prev l ≠ [] := by
  cases l with
  | nil => exact absurd rfl h
  | cons b rest => simp [logIntervalsGo]

theorem logIntervalsGo_head (logs : List RpcLog) (prev : Int) (l : List Int) :
    (logIntervalsGo logs prev l).head?.map (fun iv => iv.startBlock) =
      l.head?.map (fun _ => prev) := by
  cases l with
  | nil => rfl
  | cons b rest => rfl

theorem logIntervalsGo_chain (logs : List RpcLog) :
    ∀ (l : List Int) (prev : Int),
      List.Chain' (fun a b => b.startBlock = a.endBlock + 1)
        (logIntervalsGo logs prev l) := by
  intro l
  induction l with
  | nil => intro prev; simp [logIntervalsGo]
  | cons b rest ih =>
    intro prev
    cases rest with
    | nil => simp [logIntervalsGo]
    | cons c rest' =>
      rw [logIntervalsGo, logIntervalsGo]
      refine List.Chain'.cons rfl ?_
      have := ih (b + 1)
      rwa [logIntervalsGo] at this

theorem logIntervalsGo_fields (logs : List RpcLog) :
    ∀ (l : List Int) (prev : Int) (iv : LogInterval),
      iv ∈ logIntervalsGo logs prev l →
        iv.logs = logs.filter (fun lg => lg.blockNumber == iv.endBlock) ∧
        iv.endBlock ∈ l := by
  intro l
  induction l with
  | nil => intro prev iv h; simp [logIntervalsGo] at h
  | cons b rest ih =>
    intro prev iv h
    rw [logIntervalsGo] at h
    rcases List.mem_cons.mp h with rfl | h
    · exact ⟨rfl, List.mem_cons_self _ _⟩
    · rcases ih (b + 1) iv h with ⟨h1, h2⟩
      exact ⟨h1, List.mem_cons_of_mem _ h2⟩

theorem logIntervalsGo_valid (logs : List RpcLog) :
    ∀ (l : List Int) (prev : Int), l.Pairwise (· < ·) → (∀ x ∈ l, prev ≤ x) →
      ∀ iv ∈ logIntervalsGo logs prev l, iv.startBlock ≤ iv.endBlock := by
  intro l
  induction l with
  | nil => intro prev _ _ iv h; simp [logIntervalsGo] at h
  | cons b rest ih =>
    intro prev hpw hlb iv h
    rw [List.pairwise_cons] at hpw
    rw [logIntervalsGo] at h
    rcases List.mem_cons.mp h with rfl | h
    · exact hlb b (List.mem_cons_self _ _)
    · exact ih (b + 1) hpw.2 (fun x hx => hpw.1 x hx) iv h

/-! ### Helper lemmas for the setup of a factory source -/

theorem mem_setup_logTask (target : Interval) (cc cl : List Interval) (k : Nat)
    (f tb : Int) :
    HTask.factoryLogFilter 0 f tb ∈ (setupFactorySource target cc cl k).tasks ↔
      (f, tb) ∈ getChunks
        (intervalDifference (ProgressTracker.getRequired ⟨target, cl⟩)
          (ProgressTracker.getRequired ⟨target, cc⟩)) k := by
  show HTask.factoryLogFilter 0 f tb ∈
      (getChunks (ProgressTracker.getRequired ⟨target, cc⟩) k).map
        (fun p => HTask.factoryChildAddress 0 k p.1 p.2) ++
      (getChunks
        (intervalDifference (ProgressTracker.getRequired ⟨target, cl⟩)
          (ProgressTracker.getRequired ⟨target, cc⟩)) k).map
        (fun p => HTask.factoryLogFilter 0 p.1 p.2) ↔ _
  rw [List.mem_append]
  constructor
  · rintro (h | h)
    · exfalso
      rcases List.mem_map.mp h with ⟨p, _, hEq⟩
      simp at hEq
    · rcases List.mem_map.mp h with ⟨⟨pf, pt⟩, hp, hEq⟩
      injection hEq with _ h1 h2
      subst h1
      subst h2
      exact hp
  · intro h
    exact Or.inr (List.mem_map.mpr ⟨(f, tb), h, rfl⟩)

/-! ### The claims -/

/-- Claim C1: the claim states that within a single run each block
number is dispatched in at most one `BLOCK` task.  The code violates
it: in the concrete run `scenarioFinal` (factory source `[0, 30]`, child
address intervals `[[10, 20]]` cached from an earlier run, a child log
at block 15, concurrency 1, priority order), `setup` enqueues a
`FACTORY_LOG_FILTER` task for `[10, 20]` and the first child address
completion spawns an overlapping one for `[0, 20]`; the second of the
two re-registers callbacks for blocks 15 and 20 after those blocks were
already drained, and when the last tracker finishes, the threshold
becomes `Infinity` and blocks 15 and 20 are each dispatched in a second
`BLOCK` task. -/
theorem scenario_block_dispatched_twice :
    scenarioFinal.enqueuedBlocks = [9, 15, 20, 15, 20, 30]
    ∧ scenarioFinal.enqueuedBlocks.count 15 = 2
    ∧ scenarioFinal.enqueuedBlocks.count 20 = 2
    ∧ ¬ scenarioFinal.enqueuedBlocks.Nodup := by
  decide

/-- Claim C2: when at least one progress tracker has non-empty required
work, `blockTasksCanBeEnqueuedTo` is the minimum of the checkpoints of
exactly those trackers, and — only when that threshold exceeds
`blockTasksEnqueuedCheckpoint` — the `BLOCK` tasks enqueued are
precisely the `blockCallbacks` keys at most the threshold. -/
theorem enqueueBlockTasks_threshold_min_and_drain (st : OrchState)
    (h : st.activeCheckpoints ≠ []) : enqueueThresholdSpec st := by
  obtain ⟨x, xs, hx⟩ : ∃ x xs, st.activeCheckpoints = x :: xs := by
    cases hc : st.activeCheckpoints with
    | nil => exact absurd hc h
    | cons a l => exact ⟨a, l, rfl⟩
  have hthr : blockTasksCanBeEnqueuedTo st = .fin (xs.foldl min x) := by
    unfold blockTasksCanBeEnqueuedTo
    rw [hx]
    rfl
  refine ⟨xs.foldl min x, hthr, ?_, ?_, ?_, ?_⟩
  · rw [hx]
    rcases foldl_min_mem xs x with hEq | hmem
    · rw [hEq]
      exact List.mem_cons_self _ _
    · exact List.mem_cons_of_mem _ hmem
  · rw [hx]
    intro c hc
    rcases List.mem_cons.mp hc with rfl | hc
    · exact foldl_min_le_init xs c
    · exact foldl_min_le_mem xs x c hc
  · intro hpos
    refine ⟨?_, ?_, ?_, ?_⟩
    · unfold enqueueBlockTasks
      rw [hthr, hpos]
      simp
    · unfold enqueueBlockTasks
      rw [hthr, hpos]
      simp
    · unfold enqueueBlockTasks
      rw [hthr, hpos]
      simp
    · intro b
      rw [List.mem_filter]
      simp [JsNum.geInt]
  · intro hneg
    unfold enqueueBlockTasks
    rw [hthr, hneg]
    simp

/-- Claim C2 (witness): the contract instantiated on a concrete state
with one active log filter tracker. -/
theorem enqueueBlockTasks_threshold_min_and_drain_witness :
    enqueueWitnessState.activeCheckpoints ≠ [] ∧
    enqueueThresholdSpec enqueueWitnessState :=
  ⟨by decide, enqueueBlockTasks_threshold_min_and_drain enqueueWitnessState (by decide)⟩

/-- Claim C3 (counterexample): the claim states that when no tracker has
required work left, the threshold equals the maximum checkpoint across
trackers.  In `allDoneState` the checkpoints are 10 and 20 and every
tracker is done, but the threshold is `Math.min()` of no arguments,
that is `Infinity`, not 20 (nor 10). -/
theorem threshold_not_max_checkpoint_counterexample :
    (∀ t ∈ allDoneState.allTrackers, t.getRequired = [])
    ∧ allDoneState.allTrackers.map ProgressTracker.getCheckpoint = [10, 20]
    ∧ blockTasksCanBeEnqueuedTo allDoneState = .inf
    ∧ blockTasksCanBeEnqueuedTo allDoneState ≠ .fin 20
    ∧ blockTasksCanBeEnqueuedTo allDoneState ≠ .fin 10 := by
  decide

/-- Claim C3 (amended): when no tracker has required work left, the
threshold `blockTasksCanBeEnqueuedTo` is JavaScript `Infinity` (the
`Math.min` of an empty spread), which strictly exceeds every tracker's
checkpoint, so every remaining `blockCallbacks` key is drained. -/
theorem threshold_infinity_when_no_required_work (st : OrchState)
    (h : ∀ t ∈ st.allTrackers, t.getRequired = []) :
    blockTasksCanBeEnqueuedTo st = .inf ∧
    ∀ t ∈ st.allTrackers,
      (JsNum.fin t.getCheckpoint).jlt (blockTasksCanBeEnqueuedTo st) = true := by
  have hact : st.activeCheckpoints = [] := by
    unfold OrchState.activeCheckpoints
    rw [List.map_eq_nil_iff, List.filter_eq_nil_iff]
    intro t ht
    simp [h t ht]
  unfold blockTasksCanBeEnqueuedTo
  rw [hact]
  exact ⟨rfl, fun t _ => rfl⟩

/-- Claim C3 (witness for the amended claim): instantiated on
`allDoneState`. -/
theorem threshold_infinity_when_no_required_work_witness :
    (∀ t ∈ allDoneState.allTrackers, t.getRequired = [])
    ∧ (blockTasksCanBeEnqueuedTo allDoneState = .inf ∧
       ∀ t ∈ allDoneState.allTrackers,
         (JsNum.fin t.getCheckpoint).jlt (blockTasksCanBeEnqueuedTo allDoneState) = true) :=
  ⟨by decide, threshold_infinity_when_no_required_work allDoneState (by decide)⟩

/-- Claim C4: the claim states that the `TRACE_FILTER` worker calls
`addCompletedInterval([fromBlock, toBlock])` on the trace filter
tracker so its checkpoint advances.  The code's `TRACE_FILTER` case is
a `TODO` stub (service.ts:713-716): running a `TRACE_FILTER` task for
`[0, 10]` leaves the whole state unchanged and the trace tracker's
checkpoint at `-1`, while the claimed `addCompletedInterval` call would
have advanced it to 10. -/
theorem traceFilter_worker_is_stub :
    runTask (fun _ => []) traceSourceState (.traceFilter 0 0 10) = (traceSourceState, [])
    ∧ ((runTask (fun _ => []) traceSourceState
        (.traceFilter 0 0 10)).1.traceFilterProgressTrackers.getD 0
          junkTracker).getCheckpoint = -1
    ∧ (ProgressTracker.addCompletedInterval ⟨(0, 10), []⟩ (0, 10)).tracker.getCheckpoint
        = 10 := by
  decide

/-- Claim C5: at setup, the `FACTORY_LOG_FILTER` tasks cover exactly
the chunks of `intervalDifference(requiredFactoryLogFilterIntervals,
requiredFactoryChildAddressIntervals)`: a block gets such a task iff it
is required by the log filter tracker and not by the child address
tracker (so intervals still needing child address discovery get none),
and every task range fits in `maxBlockRange`. -/
theorem setup_factory_log_filter_tasks_cover_difference (target : Interval)
    (cc cl : List Interval) (k : Nat) (hk : 1 ≤ k) :
    factorySetupLogTasksSpec target cc cl k := by
  constructor
  · intro n
    constructor
    · rintro ⟨f, tb, hmem, h1, h2⟩
      have hc := (mem_setup_logTask target cc cl k f tb).mp hmem
      have hcov : covers (getChunks
          (intervalDifference (ProgressTracker.getRequired ⟨target, cl⟩)
            (ProgressTracker.getRequired ⟨target, cc⟩)) k) n := ⟨(f, tb), hc, h1, h2⟩
      rw [covers_getChunks k hk, covers_intervalDifference] at hcov
      exact hcov
    · intro hcov
      have hdiff : covers (intervalDifference (ProgressTracker.getRequired ⟨target, cl⟩)
          (ProgressTracker.getRequired ⟨target, cc⟩)) n :=
        (covers_intervalDifference _ _ n).mpr hcov
      rw [← covers_getChunks k hk] at hdiff
      rcases hdiff with ⟨⟨f, tb⟩, hc, h1, h2⟩
      exact ⟨f, tb, (mem_setup_logTask target cc cl k f tb).mpr hc, h1, h2⟩
  · intro f tb hmem
    have hc := (mem_setup_logTask target cc cl k f tb).mp hmem
    have hsize := getChunks_size k hk _ _ hc
    simpa using hsize

/-- Claim C5 (witness): instantiated on the factory source of the
scenario (`target = [0, 30]`, child intervals `[[10, 20]]` cached, no
log filter intervals cached, `maxBlockRange = 50`). -/
theorem setup_factory_log_filter_tasks_cover_difference_witness :
    1 ≤ 50 ∧ factorySetupLogTasksSpec (0, 30) [(10, 20)] [] 50 :=
  ⟨by decide,
    setup_factory_log_filter_tasks_cover_difference (0, 30) [(10, 20)] [] 50 (by decide)⟩

/-- Claim C6: the claim states that every `addPendingBlocks` call
satisfies the tracker's precondition (ascending within a call, and
strictly above all block numbers of earlier calls).  The code violates
it: in the run `scenarioFinal`, the first call passes `[9, 15, 20]` and
the second call passes `[15, 20, 30]`, whose 15 is not greater than the
20 already passed — re-registered callbacks below the drained
checkpoint are drained a second time. -/
theorem scenario_addPendingBlocks_violation :
    scenarioFinal.pendingBlockCalls = [[9, 15, 20], [15, 20, 30]]
    ∧ (20 : Int) ∈ scenarioFinal.pendingBlockCalls.getD 0 []
    ∧ (15 : Int) ∈ scenarioFinal.pendingBlockCalls.getD 1 []
    ∧ ¬ (20 : Int) < 15 := by
  decide

/-- Claim C7: for `fromBlock ≤ toBlock` and logs whose block numbers
lie in `[fromBlock, toBlock]`, `buildLogIntervals` tiles the range
exactly: the first interval starts at `fromBlock`, each subsequent one
starts at the previous `endBlock + 1`, the last ends at `toBlock`
(appended with empty logs when no log sits there), and each interval
carries exactly the logs of its `endBlock`. -/
theorem buildLogIntervals_tiles_range (fromBlock toBlock : Int) (logs : List RpcLog)
    (hft : fromBlock ≤ toBlock)
    (hlogs : ∀ l ∈ logs, fromBlock ≤ l.blockNumber ∧ l.blockNumber ≤ toBlock) :
    logIntervalsTile fromBlock toBlock logs := by
  have hub : ∀ l ∈ logs, l.blockNumber ≤ toBlock := fun l hl => (hlogs l hl).2
  have hlb : ∀ l ∈ logs, fromBlock ≤ l.blockNumber := fun l hl => (hlogs l hl).1
  have hne := requiredLogBlocks_ne_nil toBlock logs
  refine ⟨?_, ?_, ?_, ?_, ?_⟩
  · exact logIntervalsGo_ne_nil logs fromBlock _ hne
  · rw [buildLogIntervals, logIntervalsGo_head]
    cases hc : requiredLogBlocks toBlock logs with
    | nil => exact absurd hc hne
    | cons b rest => rfl
  · exact logIntervalsGo_chain logs _ fromBlock
  · rw [buildLogIntervals]
    have hmap := logIntervalsGo_map_endBlock logs (requiredLogBlocks toBlock logs) fromBlock
    have hlast : ((logIntervalsGo logs fromBlock (requiredLogBlocks toBlock logs)).map
        (fun iv => iv.endBlock)).getLast? = some toBlock := by
      rw [hmap, getLast?_requiredLogBlocks toBlock logs hub]
    rwa [List.getLast?_map] at hlast
  · intro iv hiv
    refine ⟨?_, (logIntervalsGo_fields logs _ fromBlock iv hiv).1⟩
    exact logIntervalsGo_valid logs _ fromBlock
      (pairwise_requiredLogBlocks toBlock logs hub)
      (mem_requiredLogBlocks_lb fromBlock toBlock logs hft hlb) iv hiv

/-- Claim C7 (witness): instantiated on `[0, 20]` with one log at block
15. -/
theorem buildLogIntervals_tiles_range_witness :
    ((0 : Int) ≤ 20
     ∧ ∀ l ∈ [RpcLog.mk 15 7], (0 : Int) ≤ l.blockNumber ∧ l.blockNumber ≤ 20)
    ∧ logIntervalsTile 0 20 [RpcLog.mk 15 7] :=
  ⟨⟨by decide, by decide⟩,
    buildLogIntervals_tiles_range 0 20 [RpcLog.mk 15 7] (by decide) (by decide)⟩

/-- Claim C8: the claim states that for every integer `offset`
(including `offset > fromBlock`) the enumerated required blocks are
exactly the `n` in `[fromBlock, toBlock]` with
`(n - offset) mod interval == 0`, plus `toBlock`.  The code violates
it: for `fromBlock = 0, toBlock = 30, interval = 10, offset = 3` (spec
Scenario F), the JS remainder `(0 - 3) % 10 = -3` makes the first
candidate `0 + (10 - (-3)) = 13`, so the matched block 3 is skipped and
the worker enumerates `[13, 23, 30]`. -/
theorem blockFilter_skips_matched_block :
    blockFilterRequiredBlocks 0 30 10 3 = [13, 23, 30]
    ∧ ((3 : Int) - 3) % 10 = 0
    ∧ (0 : Int) ≤ 3
    ∧ (3 : Int) ≤ 30
    ∧ (3 : Int) ∉ blockFilterRequiredBlocks 0 30 10 3 := by
  decide

/-- Claim C9: for every task kind, `onError` with the shutdown flag set
returns without re-enqueueing, and with the flag clear re-enqueues a
copy of the failed task at its original priority,
`Number.MAX_SAFE_INTEGER` minus `fromBlock` (or minus `blockNumber` for
`BLOCK` tasks). -/
theorem onError_reenqueues_at_original_priority (task : QTask)
    (q : List (QTask × Int)) :
    onError true task q = q ∧
    onError false task q = q ++ [(task, maxSafeInteger - taskBlockKey task)] := by
  refine ⟨rfl, ?_⟩
  cases task <;> rfl

/-- Claim C10: a failed `BLOCK` task is re-enqueued with the same
callbacks list (the shallow copy `{ ...task }` keeps the array), the
retry runs every callback again from the beginning, and the callbacks
completed before the failure are a prefix of the list, hence re-run on
retry; no completed-callback progress is recorded. -/
theorem block_task_retry_restarts_callbacks (bn : Int) (cbs : List Nat)
    (fails : Nat → Bool) (q : List (QTask × Int))
    (hfail : (runCallbacks fails cbs).2 = false) :
    onError false (QTask.block bn cbs) q = q ++ [(QTask.block bn cbs, maxSafeInteger - bn)]
    ∧ runCallbacks (fun _ => false) cbs = (cbs, true)
    ∧ ∃ rest, (runCallbacks fails cbs).1 ++ rest = cbs := by
  refine ⟨rfl, ?_, ?_⟩
  · clear hfail
    induction cbs with
    | nil => rfl
    | cons c rest ih => simp [runCallbacks, ih]
  · clear hfail
    induction cbs with
    | nil => exact ⟨[], rfl⟩
    | cons c rest ih =>
      rw [runCallbacks]
      by_cases h : fails c
      · rw [if_pos h]
        exact ⟨c :: rest, rfl⟩
      · rw [if_neg h]
        rcases ih with ⟨r, hr⟩
        exact ⟨r, by simp [hr]⟩

/-- Claim C10 (witness): a `BLOCK` task for block 5 with callbacks
`[1, 2, 3]` where callback 2 throws. -/
theorem block_task_retry_restarts_callbacks_witness :
    (runCallbacks (fun n => n == 2) [1, 2, 3]).2 = false
    ∧ (onError false (QTask.block 5 [1, 2, 3]) [] =
        [] ++ [(QTask.block 5 [1, 2, 3], maxSafeInteger - 5)]
      ∧ runCallbacks (fun _ => false) [1, 2, 3] = ([1, 2, 3], true)
      ∧ ∃ rest, (runCallbacks (fun n => n == 2) [1, 2, 3]).1 ++ rest = [1, 2, 3]) :=
  ⟨by decide,
    block_task_retry_restarts_callbacks 5 [1, 2, 3] (fun n => n == 2) [] (by decide)⟩

end Ponder
